import Mathlib

/-
Verification of the heimdallr core: the websocket broadcast hub (Wspool),
the per-session output task (wsConn.writeLoop), and the wire tokeniser.

Shallow embedding conventions:
* A wsConn is identified by reference equality; we model it as a Nat id.
* The Go map connections : map[*wsConn]bool (whose value is always true)
  is a Nodup list of ids standing for the set of keys.
* Channel operations performed by the hub are recorded as explicit
  effects: closing a session mailbox (close(conn.send)), a successful
  non-blocking handoff (conn.send <- payload), and the waitgroup
  decrement (wg.Done()).
* The three input channels of the hub (broadcast / register /
  unregister) are replaced by an explicit list of events consumed in
  arrival order, exactly as the single select loop does. A broadcast
  event carries the ok flag of the channel receive (ok = false is the
  closed-channel shutdown sentinel, in which case the payload is the
  zero value) and a readiness oracle telling, for each session, whether
  its output task is currently blocked at the mailbox receive so that a
  zero-capacity handoff would succeed immediately.
-/

abbrev Conn := Nat

abbrev Payload := List Nat

/-- State of a Wspool: the live connection set and the quit flag.
The input channels and the waitgroup pointer of the Go struct are
modelled by the event list fed to run and by the emitted effects. -/
structure Wspool where
  connections : List Conn
  quit : Bool
deriving DecidableEq

/-- Observable channel/waitgroup actions performed by the hub. -/
inductive Effect where
  | closeSend : Conn → Effect
  | send : Conn → Payload → Effect
  | wgDone : Effect
deriving DecidableEq

/-- closeConn: delete the conn from the map and close its send channel. -/
def closeConn (w : Wspool) (c : Conn) : Wspool × List Effect :=
  ({ w with connections := w.connections.erase c }, [Effect.closeSend c])

/-- The first loop of handleBroadcast in the shutdown branch:
for conn := range wspool.connections { wspool.closeConn(conn) }.
The range loop is modelled by iterating over the snapshot of the key
list; Go guarantees that an entry deleted during iteration (here always
the entry being visited) is not produced again. -/
def closeAll : Wspool → List Conn → Wspool × List Effect
  | w, [] => (w, [])
  | w, c :: cs =>
    let p1 := closeConn w c
    let p2 := closeAll p1.1 cs
    (p2.1, p1.2 ++ p2.2)

/-- The second loop of handleBroadcast: for each conn in the snapshot,
select { case conn.send <- payload: ; default: closeConn(conn) }.
ready c says whether the receiver is at the rendezvous, i.e. whether
the non-blocking send succeeds. -/
def fanout (ready : Conn → Bool) (payload : Payload) :
    Wspool → List Conn → Wspool × List Effect
  | w, [] => (w, [])
  | w, c :: cs =>
    if ready c then
      let p2 := fanout ready payload w cs
      (p2.1, Effect.send c payload :: p2.2)
    else
      let p1 := closeConn w c
      let p2 := fanout ready payload p1.1 cs
      (p2.1, p1.2 ++ p2.2)

/-- handleBroadcast payload ok: on ok = false (broadcast channel closed)
close every live conn and set quit; then in either case fan the payload
out to the (possibly just emptied) live set. -/
def handleBroadcast (w : Wspool) (payload : Payload) (ok : Bool)
    (ready : Conn → Bool) : Wspool × List Effect :=
  if ok then
    fanout ready payload w w.connections
  else
    let p1 := closeAll w w.connections
    let w2 : Wspool := { p1.1 with quit := true }
    let p2 := fanout ready payload w2 w2.connections
    (p2.1, p1.2 ++ p2.2)

/-- Map insertion connections[conn] = true: a set insert, no duplicate
entry when the key is already present. -/
def insertConn (c : Conn) (l : List Conn) : List Conn :=
  if c ∈ l then l else c :: l

/-- One event arriving on one of the three channels of the select. -/
inductive Event where
  | broadcast : Payload → Bool → (Conn → Bool) → Event
  | register : Conn → Event
  | unregister : Conn → Event

/-- The body of the select statement in run. -/
def step (w : Wspool) : Event → Wspool × List Effect
  | Event.broadcast payload ok ready => handleBroadcast w payload ok ready
  | Event.register c => ({ w with connections := insertConn c w.connections }, [])
  | Event.unregister c =>
    if c ∈ w.connections then closeConn w c else (w, [])

/-- run: the main loop on a Wspool, consuming pending events in arrival
order; after each event, if quit is set it fires wg.Done() once and
breaks.  An empty pending list is the loop parked in its select. -/
def run : Wspool → List Event → Wspool × List Effect
  | w, [] => (w, [])
  | w, e :: es =>
    let p1 := step w e
    if p1.1.quit then (p1.1, p1.2 ++ [Effect.wgDone])
    else
      let p2 := run p1.1 es
      (p2.1, p1.2 ++ p2.2)

/-- The sequence of payloads handed into conn c's mailbox, in order. -/
def received (c : Conn) (effs : List Effect) : List Payload :=
  effs.filterMap fun e =>
    match e with
    | Effect.send c2 p => if c2 = c then some p else none
    | _ => none

/-- The conns whose send channel was closed, in order of closing. -/
def closedConns (effs : List Effect) : List Conn :=
  effs.filterMap fun e =>
    match e with
    | Effect.closeSend c => some c
    | _ => none

/-- Detects a send into a mailbox that was closed earlier in the trace:
in Go, a send on a closed channel panics unconditionally. -/
def sendOnClosed : List Effect → Bool
  | [] => false
  | Effect.closeSend c :: rest =>
    (rest.any fun e =>
      match e with
      | Effect.send c2 _ => c2 = c
      | _ => false) || sendOnClosed rest
  | _ :: rest => sendOnClosed rest

/-- Every member of the live set has a mailbox that has never been
closed (closed is the accumulated list of closed conns). -/
def InvOpen (w : Wspool) (closed : List Conn) : Prop :=
  ∀ c ∈ w.connections, c ∉ closed

/-- A sequence of pure payload broadcasts (ok = true), each with its
own readiness oracle. -/
def bEvents (bs : List (Payload × (Conn → Bool))) : List Event :=
  bs.map fun b => Event.broadcast b.1 true b.2

/-
Session (wsConn) output task.  Durations are Nats in nanoseconds,
mirroring Go's time.Duration. -/

def second : Nat := 1000000000

/-- Time allowed to write a message to the peer. -/
def writeWait : Nat := 10 * second

/-- Time allowed to read the next pong message from the peer. -/
def pongWait : Nat := 60 * second

/-- Send pings to peer with this period. Must be less than pongWait. -/
def pingPeriod : Nat := (pongWait * 9) / 10

/-- gorilla/websocket message type codes. -/
def textMessage : Nat := 1

def closeMessage : Nat := 8

def pingMessage : Nat := 9

/-- One transport write as performed by wsConn.write: the message type,
the payload, and the write deadline it was set under. -/
structure WriteRec where
  mt : Nat
  payload : Payload
  deadline : Nat
deriving DecidableEq

/-- wsConn.write: sets the write deadline to now + writeWait and writes
the message.  The Bool oracle says whether the transport write (the
deadline set or the write proper) succeeded; the record of the attempt
always carries the writeWait deadline. -/
def write (ok : Bool) (mt : Nat) (payload : Payload) : WriteRec × Bool :=
  (⟨mt, payload, writeWait⟩, ok)

/-- The two wakeup sources of the writeLoop select: a mailbox receive
(a payload, or closed-channel) and the ping ticker. -/
inductive WsEvent where
  | msg : Payload → WsEvent
  | mailboxClosed : WsEvent
  | tick : WsEvent

/-- wsConn.writeLoop: drains the mailbox and pings on the ticker; wok k
tells whether the k-th transport write succeeds.  The result is the
list of write attempts of this one task; the Go function returns
nothing and owns no channel back to the hub, so a failed write simply
ends the recursion - nothing else in the system receives the error.
The deferred ticker stop and transport close run on every exit path. -/
def writeLoop (wok : Nat → Bool) : Nat → List WsEvent → List WriteRec
  | _, [] => []
  | k, WsEvent.mailboxClosed :: _ =>
    [(write (wok k) closeMessage []).1]
  | k, WsEvent.msg p :: es =>
    let r := write (wok k) textMessage p
    if r.2 then r.1 :: writeLoop wok (k + 1) es else [r.1]
  | k, WsEvent.tick :: es =>
    let r := write (wok k) pingMessage []
    if r.2 then r.1 :: writeLoop wok (k + 1) es else [r.1]

/-
Tokeniser. -/

/-- Modelled from the spec: the tokeniser package
(github.com/UniversityRadioYork/ury-rapid-go/tokeniser) is imported by
the backend client but its source is not part of this repository; only
its caller (t.Parse(data) feeding lines of words) is.  Per the spec,
the state is a single buffer of bytes not yet resolved into a complete
Line; decode splits off the complete lines (a newline terminates a line
only outside a quoted word), tokenises each into words (words split on
whitespace runs, a quoted word embeds whitespace, backslash inside a
quote escapes the next character, so a quote character can be
embedded), and keeps the trailing partial line buffered.  QMode is the
quote-scanning state of a byte scan. -/
inductive QMode where
  | norm : QMode
  | quoted : QMode
  | esc : QMode
deriving DecidableEq

/-- Modelled from the spec: one character of quote scanning. -/
def qstep : QMode → Char → QMode
  | QMode.norm, c => if c = '"' then QMode.quoted else QMode.norm
  | QMode.quoted, c =>
    if c = '\\' then QMode.esc
    else if c = '"' then QMode.norm
    else QMode.quoted
  | QMode.esc, _ => QMode.quoted

/-- Modelled from the spec: the quote state after scanning a buffer. -/
def scanMode (l : List Char) : QMode := l.foldl qstep QMode.norm

/-- Modelled from the spec: word-separating whitespace. -/
def isWS (c : Char) : Bool := c = ' ' || c = '\t'

/-- Word-splitting state: words emitted so far, the current word, a
flag telling whether a word is in progress (so a quoted empty word is
still a word), and the quote mode. -/
structure TkSt where
  words : List (List Char)
  cur : List Char
  started : Bool
  mode : QMode

/-- Modelled from the spec: one character of word splitting. -/
def tkStep (s : TkSt) (ch : Char) : TkSt :=
  match s.mode with
  | QMode.esc => { s with cur := s.cur ++ [ch], mode := QMode.quoted }
  | QMode.quoted =>
    if ch = '\\' then { s with mode := QMode.esc }
    else if ch = '"' then { s with mode := QMode.norm }
    else { s with cur := s.cur ++ [ch] }
  | QMode.norm =>
    if ch = '"' then { s with mode := QMode.quoted, started := true }
    else if isWS ch then
      if s.started then
        { s with words := s.words ++ [s.cur], cur := [], started := false }
      else s
    else { s with cur := s.cur ++ [ch], started := true }

/-- Modelled from the spec: split one complete line into its words. -/
def tokenizeLine (l : List Char) : List (List Char) :=
  let s := l.foldl tkStep ⟨[], [], false, QMode.norm⟩
  if s.started then s.words ++ [s.cur] else s.words

/-- Modelled from the spec: consume one character - a newline outside a
quote completes the buffered line, any other character is appended to
the buffer. -/
def stepChar (acc : List (List Char) × List Char) (ch : Char) :
    List (List Char) × List Char :=
  if ch = '\n' ∧ scanMode acc.2 = QMode.norm then (acc.1 ++ [acc.2], [])
  else (acc.1, acc.2 ++ [ch])

/-- Modelled from the spec: feed input bytes to the tokeniser whose
buffer is buf, returning the raw byte chunks of the completed lines
(terminators stripped) and the new buffer. -/
def decodeRaw (buf : List Char) (input : List Char) :
    List (List Char) × List Char :=
  input.foldl stepChar ([], buf)

/-- Modelled from the spec: decode(bytes) - the completed lines, each
tokenised into words, plus the buffered trailing partial line. -/
def decode (buf : List Char) (input : List Char) :
    List (List (List Char)) × List Char :=
  let r := decodeRaw buf input
  (r.1.map tokenizeLine, r.2)

/-- The raw bytes a decodeRaw result accounts for: each completed line
with its terminator restored, then the buffer. -/
def rawJoin (r : List (List Char) × List Char) : List Char :=
  (r.1.map fun l => l ++ ['\n']).flatten ++ r.2

/-
Lemmas about the hub. -/

theorem closeAll_eq : ∀ (l : List Conn) (w : Wspool), w.connections = l →
    closeAll w l = (⟨[], w.quit⟩, l.map Effect.closeSend) := by
  intro l
  induction l with
  | nil =>
    intro w h
    cases w
    simp_all [closeAll]
  | cons c cs ih =>
    intro w h
    have hkey : (closeConn w c).1 = (⟨cs, w.quit⟩ : Wspool) := by
      simp [closeConn, h]
    have h2 := ih (⟨cs, w.quit⟩ : Wspool) rfl
    simp only [closeAll]
    rw [hkey, h2]
    simp [closeConn]

theorem foldl_erase_cons (c : Conn) : ∀ (ds cs : List Conn), c ∉ ds →
    List.foldl List.erase (c :: cs) ds = c :: List.foldl List.erase cs ds := by
  intro ds
  induction ds with
  | nil => intro cs _; rfl
  | cons d ds ih =>
    intro cs h
    have hdc : ¬((c : Conn) == d) := by
      simp only [beq_iff_eq]
      intro hdc
      exact h (hdc ▸ List.mem_cons_self d ds)
    have h2 : c ∉ ds := fun hm => h (List.mem_cons_of_mem d hm)
    calc List.foldl List.erase (c :: cs) (d :: ds)
        = List.foldl List.erase ((c :: cs).erase d) ds := rfl
      _ = List.foldl List.erase (c :: cs.erase d) ds := by
          rw [List.erase_cons_tail hdc]
      _ = c :: List.foldl List.erase (cs.erase d) ds := ih (cs.erase d) h2
      _ = c :: List.foldl List.erase cs (d :: ds) := rfl

theorem foldl_erase_filter (ready : Conn → Bool) :
    ∀ l : List Conn, l.Nodup →
    List.foldl List.erase l (l.filter fun c => !(ready c)) =
      l.filter (fun c => ready c) := by
  intro l
  induction l with
  | nil => intro _; rfl
  | cons c cs ih =>
    intro hnd
    have hc : c ∉ cs := (List.nodup_cons.mp hnd).1
    have hcs : cs.Nodup := (List.nodup_cons.mp hnd).2
    by_cases hr : ready c = true
    · have hf : ((c :: cs).filter fun x => !(ready x)) =
          cs.filter fun x => !(ready x) := by
        simp [List.filter_cons, hr]
      have hnm : c ∉ cs.filter fun x => !(ready x) :=
        fun hm => hc (List.mem_of_mem_filter hm)
      rw [hf, foldl_erase_cons c _ cs hnm, ih hcs]
      simp [List.filter_cons, hr]
    · have hr2 : ready c = false := by
        cases hready : ready c
        · rfl
        · exact absurd hready hr
      have hf : ((c :: cs).filter fun x => !(ready x)) =
          c :: cs.filter fun x => !(ready x) := by
        simp [List.filter_cons, hr2]
      rw [hf]
      have : List.foldl List.erase (c :: cs)
          (c :: cs.filter fun x => !(ready x)) =
          List.foldl List.erase cs (cs.filter fun x => !(ready x)) := by
        simp [List.foldl_cons]
      rw [this, ih hcs]
      simp [List.filter_cons, hr2]

theorem fanout_eq (ready : Conn → Bool) (p : Payload) :
    ∀ (l : List Conn) (w : Wspool),
    fanout ready p w l =
      (⟨List.foldl List.erase w.connections (l.filter fun c => !(ready c)),
        w.quit⟩,
       l.map fun c =>
         if ready c then Effect.send c p else Effect.closeSend c) := by
  intro l
  induction l with
  | nil =>
    intro w
    cases w
    simp [fanout]
  | cons c cs ih =>
    intro w
    by_cases hr : ready c = true
    · simp [fanout, hr, ih w, List.filter_cons]
    · have hr2 : ready c = false := by
        cases hready : ready c
        · rfl
        · exact absurd hready hr
      have h2 := ih (⟨w.connections.erase c, w.quit⟩ : Wspool)
      simp [fanout, hr2, closeConn, h2, List.filter_cons]

theorem handleBroadcast_true (w : Wspool) (p : Payload) (ready : Conn → Bool)
    (hnd : w.connections.Nodup) :
    handleBroadcast w p true ready =
      (⟨w.connections.filter (fun c => ready c), w.quit⟩,
       w.connections.map fun c =>
         if ready c then Effect.send c p else Effect.closeSend c) := by
  rw [handleBroadcast, if_pos rfl, fanout_eq,
    foldl_erase_filter ready w.connections hnd]

theorem handleBroadcast_false (w : Wspool) (p : Payload)
    (ready : Conn → Bool) :
    handleBroadcast w p false ready =
      (⟨[], true⟩, w.connections.map Effect.closeSend) := by
  have h1 := closeAll_eq w.connections w rfl
  simp only [handleBroadcast, Bool.false_eq_true, if_false, h1]
  simp [fanout_eq]

theorem received_append (c : Conn) (e1 e2 : List Effect) :
    received c (e1 ++ e2) = received c e1 ++ received c e2 := by
  simp [received, List.filterMap_append]

theorem received_cons (c : Conn) (e : Effect) (es : List Effect) :
    received c (e :: es) =
      (match e with
       | Effect.send c2 p => if c2 = c then [p] else []
       | _ => []) ++ received c es := by
  cases e with
  | closeSend c2 => simp [received, List.filterMap_cons]
  | wgDone => simp [received, List.filterMap_cons]
  | send c2 p =>
    by_cases h : c2 = c <;> simp [received, List.filterMap_cons, h]

theorem received_fanout (c : Conn) (ready : Conn → Bool) (p : Payload) :
    ∀ l : List Conn, l.Nodup →
    received c (l.map fun c2 =>
      if ready c2 then Effect.send c2 p else Effect.closeSend c2) =
      if c ∈ l ∧ ready c = true then [p] else [] := by
  intro l
  induction l with
  | nil => intro _; simp [received]
  | cons d ds ih =>
    intro hnd
    have hd : d ∉ ds := (List.nodup_cons.mp hnd).1
    have hds : ds.Nodup := (List.nodup_cons.mp hnd).2
    rw [List.map_cons, received_cons, ih hds]
    rcases Decidable.em (d = c) with hdc | hdc
    · subst hdc
      rcases Bool.eq_false_or_eq_true (ready d) with hr | hr
      · simp [hr, hd]
      · simp [hr, hd]
    · have hcd : c ≠ d := fun h => hdc h.symm
      rcases Bool.eq_false_or_eq_true (ready d) with hr | hr
      · simp [hr, hdc, hcd, List.mem_cons]
      · simp [hr, hdc, hcd, List.mem_cons]

theorem run_bcast_cons (w : Wspool) (b : Payload × (Conn → Bool))
    (bs : List (Payload × (Conn → Bool))) (hq : w.quit = false)
    (hnd : w.connections.Nodup) :
    run w (bEvents (b :: bs)) =
      ((run (⟨w.connections.filter fun c => b.2 c, w.quit⟩ : Wspool)
          (bEvents bs)).1,
       (w.connections.map fun c =>
          if b.2 c then Effect.send c b.1 else Effect.closeSend c)
         ++ (run (⟨w.connections.filter fun c => b.2 c, w.quit⟩ : Wspool)
               (bEvents bs)).2) := by
  have h1 := handleBroadcast_true w b.1 b.2 hnd
  simp only [bEvents, List.map_cons, run, step, h1]
  rw [hq]
  simp [bEvents]

theorem run_bcast_mem : ∀ (bs : List (Payload × (Conn → Bool)))
    (w : Wspool) (c : Conn), w.quit = false → w.connections.Nodup →
    c ∈ (run w (bEvents bs)).1.connections → c ∈ w.connections := by
  intro bs
  induction bs with
  | nil =>
    intro w c _ _ h
    simpa [bEvents, run] using h
  | cons b bs ih =>
    intro w c hq hnd h
    rw [run_bcast_cons w b bs hq hnd] at h
    have h2 := ih (⟨w.connections.filter fun x => b.2 x, w.quit⟩ : Wspool)
      c hq (hnd.filter _) h
    exact List.mem_of_mem_filter h2

theorem run_bcast_received_absent : ∀ (bs : List (Payload × (Conn → Bool)))
    (w : Wspool) (c : Conn), w.quit = false → w.connections.Nodup →
    c ∉ w.connections → received c (run w (bEvents bs)).2 = [] := by
  intro bs
  induction bs with
  | nil =>
    intro w c _ _ _
    simp [bEvents, run, received]
  | cons b bs ih =>
    intro w c hq hnd hc
    rw [run_bcast_cons w b bs hq hnd, received_append,
      received_fanout c b.2 b.1 w.connections hnd]
    have h2 := ih (⟨w.connections.filter fun x => b.2 x, w.quit⟩ : Wspool)
      c hq (hnd.filter _) (fun hm => hc (List.mem_of_mem_filter hm))
    rw [h2]
    simp [hc]

theorem run_bcast_survivor : ∀ (bs : List (Payload × (Conn → Bool)))
    (w : Wspool) (c : Conn), w.quit = false → w.connections.Nodup →
    c ∈ (run w (bEvents bs)).1.connections →
    received c (run w (bEvents bs)).2 = bs.map Prod.fst := by
  intro bs
  induction bs with
  | nil =>
    intro w c _ _ _
    simp [bEvents, run, received]
  | cons b bs ih =>
    intro w c hq hnd hmem
    rw [run_bcast_cons w b bs hq hnd] at hmem ⊢
    have hc1 : c ∈ w.connections.filter fun x => b.2 x :=
      run_bcast_mem bs (⟨w.connections.filter fun x => b.2 x, w.quit⟩ : Wspool)
        c hq (hnd.filter _) hmem
    have hcw : c ∈ w.connections := List.mem_of_mem_filter hc1
    have hcr : b.2 c = true := by
      simpa using (List.mem_filter.mp hc1).2
    rw [received_append, received_fanout c b.2 b.1 w.connections hnd,
      ih (⟨w.connections.filter fun x => b.2 x, w.quit⟩ : Wspool) c hq
        (hnd.filter _) hmem]
    simp [hcw, hcr]

theorem run_bcast_take : ∀ (bs : List (Payload × (Conn → Bool)))
    (w : Wspool) (c : Conn), w.quit = false → w.connections.Nodup →
    ∃ k, received c (run w (bEvents bs)).2 = (bs.map Prod.fst).take k := by
  intro bs
  induction bs with
  | nil =>
    intro w c _ _
    exact ⟨0, by simp [bEvents, run, received]⟩
  | cons b bs ih =>
    intro w c hq hnd
    rw [run_bcast_cons w b bs hq hnd, received_append,
      received_fanout c b.2 b.1 w.connections hnd]
    by_cases hc : c ∈ w.connections ∧ b.2 c = true
    · obtain ⟨k, hk⟩ := ih
        (⟨w.connections.filter fun x => b.2 x, w.quit⟩ : Wspool) c hq
        (hnd.filter _)
      refine ⟨k + 1, ?_⟩
      simp [hc, hk]
    · have hnm : c ∉ w.connections.filter fun x => b.2 x := by
        intro hm
        exact hc ⟨List.mem_of_mem_filter hm, by
          simpa using (List.mem_filter.mp hm).2⟩
      have h2 := run_bcast_received_absent bs
        (⟨w.connections.filter fun x => b.2 x, w.quit⟩ : Wspool) c hq
        (hnd.filter _) hnm
      refine ⟨0, ?_⟩
      simp [hc, h2]

theorem mem_insertConn (c c0 : Conn) (l : List Conn) :
    c ∈ insertConn c0 l ↔ c = c0 ∨ c ∈ l := by
  unfold insertConn
  by_cases h : c0 ∈ l
  · rw [if_pos h]
    constructor
    · exact Or.inr
    · rintro (rfl | hc)
      · exact h
      · exact hc
  · rw [if_neg h, List.mem_cons]

theorem insertConn_idem (c : Conn) (l : List Conn) :
    insertConn c (insertConn c l) = insertConn c l := by
  have h : c ∈ insertConn c l := (mem_insertConn c c l).mpr (Or.inl rfl)
  rw [insertConn, if_pos h]

theorem insertConn_count (c : Conn) (l : List Conn) (hnd : l.Nodup) :
    (insertConn c l).count c = 1 := by
  unfold insertConn
  by_cases h : c ∈ l
  · rw [if_pos h]
    exact List.count_eq_one_of_mem hnd h
  · rw [if_neg h]
    simp [List.count_cons_self, List.count_eq_zero_of_not_mem h]

theorem insertConn_nodup (c : Conn) (l : List Conn) (hnd : l.Nodup) :
    (insertConn c l).Nodup := by
  unfold insertConn
  by_cases h : c ∈ l
  · rw [if_pos h]; exact hnd
  · rw [if_neg h]; exact List.nodup_cons.mpr ⟨h, hnd⟩

theorem run_cons (w : Wspool) (e : Event) (es : List Event) :
    run w (e :: es) =
      if (step w e).1.quit then ((step w e).1, (step w e).2 ++ [Effect.wgDone])
      else ((run (step w e).1 es).1,
        (step w e).2 ++ (run (step w e).1 es).2) := rfl

theorem run_registers : ∀ (n : Nat) (w : Wspool) (c : Conn),
    w.quit = false →
    run w (List.replicate (n + 1) (Event.register c)) =
      (⟨insertConn c w.connections, w.quit⟩, []) := by
  intro n
  induction n with
  | zero =>
    intro w c hq
    simp [run, step, List.replicate, hq]
  | succ n ih =>
    intro w c hq
    have h1 := ih (⟨insertConn c w.connections, w.quit⟩ : Wspool) c hq
    rw [List.replicate_succ, run_cons]
    have e1 : step w (Event.register c) =
        ((⟨insertConn c w.connections, w.quit⟩ : Wspool), []) := rfl
    rw [e1]
    simp only [h1]
    simp [hq, insertConn_idem]

theorem closedConns_fanout (ready : Conn → Bool) (p : Payload) :
    ∀ l : List Conn,
    closedConns (l.map fun c =>
      if ready c then Effect.send c p else Effect.closeSend c) =
      l.filter fun c => !(ready c) := by
  intro l
  induction l with
  | nil => simp [closedConns]
  | cons d ds ih =>
    rcases Bool.eq_false_or_eq_true (ready d) with hr | hr
    · simp [closedConns, List.filterMap_cons, List.filter_cons, hr] at ih ⊢
      exact ih
    · simp [closedConns, List.filterMap_cons, List.filter_cons, hr] at ih ⊢
      exact ih

theorem closedConns_map_closeSend : ∀ l : List Conn,
    closedConns (l.map Effect.closeSend) = l := by
  intro l
  induction l with
  | nil => simp [closedConns]
  | cons d ds ih =>
    simp [closedConns, List.filterMap_cons] at ih ⊢
    exact ih

theorem writeLoop_deadline (wok : Nat → Bool) :
    ∀ (evs : List WsEvent) (k : Nat), ∀ r ∈ writeLoop wok k evs,
    r.deadline = writeWait := by
  intro evs
  induction evs with
  | nil => intro k r hr; simp [writeLoop] at hr
  | cons e es ih =>
    intro k r hr
    cases e with
    | mailboxClosed =>
      simp [writeLoop, write] at hr
      rw [hr]
    | msg p =>
      rcases Bool.eq_false_or_eq_true (wok k) with hk | hk <;>
        simp [writeLoop, write, hk] at hr
      · rcases hr with hr | hr
        · rw [hr]
        · exact ih (k + 1) r hr
      · rw [hr]
    | tick =>
      rcases Bool.eq_false_or_eq_true (wok k) with hk | hk <;>
        simp [writeLoop, write, hk] at hr
      · rcases hr with hr | hr
        · rw [hr]
        · exact ih (k + 1) r hr
      · rw [hr]

/-
Lemmas about the tokeniser. -/

theorem foldl_stepChar_acc : ∀ (input : List Char) (ls : List (List Char))
    (buf : List Char),
    List.foldl stepChar (ls, buf) input =
      (ls ++ (List.foldl stepChar ([], buf) input).1,
       (List.foldl stepChar ([], buf) input).2) := by
  intro input
  induction input with
  | nil => intro ls buf; simp
  | cons ch rest ih =>
    intro ls buf
    by_cases h : ch = '\n' ∧ scanMode buf = QMode.norm
    · have e1 : stepChar (ls, buf) ch = (ls ++ [buf], []) := by
        simp [stepChar, h]
      have e2 : stepChar ([], buf) ch = ([buf], []) := by
        simp [stepChar, h]
      rw [List.foldl_cons, List.foldl_cons, e1, e2,
        ih (ls ++ [buf]) [], ih [buf] []]
      simp
    · have e1 : stepChar (ls, buf) ch = (ls, buf ++ [ch]) := by
        simp [stepChar, h]
      have e2 : stepChar ([], buf) ch = ([], buf ++ [ch]) := by
        simp [stepChar, h]
      rw [List.foldl_cons, List.foldl_cons, e1, e2]
      exact ih ls (buf ++ [ch])

theorem rawJoin_foldl : ∀ (input : List Char) (ls : List (List Char))
    (buf : List Char),
    rawJoin (List.foldl stepChar (ls, buf) input) =
      rawJoin (ls, buf) ++ input := by
  intro input
  induction input with
  | nil => intro ls buf; simp
  | cons ch rest ih =>
    intro ls buf
    by_cases h : ch = '\n' ∧ scanMode buf = QMode.norm
    · have e1 : stepChar (ls, buf) ch = (ls ++ [buf], []) := by
        simp [stepChar, h]
      rw [List.foldl_cons, e1, ih]
      obtain ⟨h1, _⟩ := h
      subst h1
      simp [rawJoin]
    · have e1 : stepChar (ls, buf) ch = (ls, buf ++ [ch]) := by
        simp [stepChar, h]
      rw [List.foldl_cons, e1, ih]
      simp [rawJoin]

theorem decodeRaw_conservation (buf input : List Char) :
    rawJoin (decodeRaw buf input) = buf ++ input := by
  unfold decodeRaw
  rw [rawJoin_foldl]
  simp [rawJoin]

theorem decodeRaw_append (buf f1 f2 : List Char) :
    decodeRaw buf (f1 ++ f2) =
      ((decodeRaw buf f1).1 ++ (decodeRaw (decodeRaw buf f1).2 f2).1,
       (decodeRaw (decodeRaw buf f1).2 f2).2) := by
  unfold decodeRaw
  rw [List.foldl_append]
  exact foldl_stepChar_acc f2 (List.foldl stepChar ([], buf) f1).1
    (List.foldl stepChar ([], buf) f1).2

/-
Claim theorems. -/

/-- C1: when the broadcast input is closed (ok = false), the hub closes
every currently-live session's mailbox exactly once, empties the live
set, sets the quit flag, terminates its loop after that single event
(any further pending register/unregister/broadcast events are never
processed), and decrements the waitgroup exactly once. -/
theorem hub_shutdown_cascade (w : Wspool) (p : Payload)
    (ready : Conn → Bool) (es : List Event)
    (hnd : w.connections.Nodup) :
    run w (Event.broadcast p false ready :: es) =
      (⟨[], true⟩, w.connections.map Effect.closeSend ++ [Effect.wgDone])
    ∧ (∀ c ∈ w.connections,
        (w.connections.map Effect.closeSend ++ [Effect.wgDone]).count
          (Effect.closeSend c) = 1)
    ∧ (w.connections.map Effect.closeSend ++ [Effect.wgDone]).count
        Effect.wgDone = 1 := by
  have hb := handleBroadcast_false w p ready
  refine ⟨?_, ?_, ?_⟩
  · rw [run_cons]
    simp only [step, hb]
    simp
  · intro c hc
    have hinj : Function.Injective Effect.closeSend := by
      intro a b h
      injection h
    rw [List.count_append,
      List.count_map_of_injective w.connections Effect.closeSend hinj c,
      List.count_eq_one_of_mem hnd hc]
    simp
  · rw [List.count_append]
    have h0 : (w.connections.map Effect.closeSend).count Effect.wgDone
        = 0 := by
      refine List.count_eq_zero_of_not_mem ?_
      intro hm
      obtain ⟨a, _, ha⟩ := List.mem_map.mp hm
      exact Effect.noConfusion ha
    rw [h0]
    simp

theorem hub_shutdown_cascade_witness :
    run ⟨[3, 4], false⟩ [Event.broadcast [] false fun _ => true] =
      (⟨[], true⟩,
       [Effect.closeSend 3, Effect.closeSend 4, Effect.wgDone]) :=
  (hub_shutdown_cascade ⟨[3, 4], false⟩ [] (fun _ => true) []
    (by decide)).1

/-- C2: handling a payload broadcast attempts a non-blocking handoff to
every live session; exactly the sessions whose handoff cannot complete
immediately (ready c = false) are, in that same event, removed from the
live set and have their mailbox closed, and the ready ones each get the
payload - the fanout is a total function of the readiness oracle and
never waits for a receiver. -/
theorem hub_broadcast_backpressure (w : Wspool) (p : Payload)
    (ready : Conn → Bool) (hnd : w.connections.Nodup) :
    handleBroadcast w p true ready =
      (⟨w.connections.filter (fun c => ready c), w.quit⟩,
       w.connections.map fun c =>
         if ready c then Effect.send c p else Effect.closeSend c)
    ∧ ∀ c ∈ w.connections, ready c = false →
        c ∉ (handleBroadcast w p true ready).1.connections
        ∧ Effect.closeSend c ∈ (handleBroadcast w p true ready).2 := by
  have h1 := handleBroadcast_true w p ready hnd
  refine ⟨h1, ?_⟩
  intro c hc hr
  rw [h1]
  constructor
  · intro hmem
    have h2 : ready c = true := by
      simpa using (List.mem_filter.mp hmem).2
    rw [hr] at h2
    exact Bool.false_ne_true h2
  · have h3 : (if ready c then Effect.send c p else Effect.closeSend c)
        ∈ w.connections.map fun c =>
          if ready c then Effect.send c p else Effect.closeSend c :=
      List.mem_map_of_mem _ hc
    rw [hr] at h3
    simpa using h3

theorem hub_broadcast_backpressure_witness :
    (handleBroadcast ⟨[1, 2], false⟩ [7] true (fun c => c == 1)).1.connections
        = [1]
    ∧ Effect.closeSend 2
        ∈ (handleBroadcast ⟨[1, 2], false⟩ [7] true (fun c => c == 1)).2 := by
  have h := hub_broadcast_backpressure ⟨[1, 2], false⟩ [7]
    (fun c => c == 1) (by decide)
  refine ⟨?_, (h.2 2 (by decide) (by decide)).2⟩
  rw [h.1]
  decide

/-- C3: over any sequence of payload broadcasts b1..bn, a session still
in the live set at the end has received exactly b1..bn, in order, on
its mailbox; and in general every session's received sequence is a take
of the broadcast sequence - a session missing a message was evicted
there and receives nothing later, never an out-of-order or duplicated
message. -/
theorem hub_fifo_per_survivor (bs : List (Payload × (Conn → Bool)))
    (w : Wspool) (c : Conn) (hq : w.quit = false)
    (hnd : w.connections.Nodup) :
    (c ∈ (run w (bEvents bs)).1.connections →
      received c (run w (bEvents bs)).2 = bs.map Prod.fst)
    ∧ ∃ k, received c (run w (bEvents bs)).2 = (bs.map Prod.fst).take k :=
  ⟨fun h => run_bcast_survivor bs w c hq hnd h,
   run_bcast_take bs w c hq hnd⟩

theorem hub_fifo_per_survivor_witness :
    received 5 (run ⟨[5], false⟩
      (bEvents [([1], fun _ => true), ([2], fun _ => true)])).2
      = [[1], [2]] :=
  (hub_fifo_per_survivor [([1], fun _ => true), ([2], fun _ => true)]
    ⟨[5], false⟩ 5 rfl (by decide)).1 (by decide)

/-- C4: processing a Register event for an already-present session is
idempotent: registering the same session any positive number of times
produces no effect (no error, no mailbox action) and leaves the live
set with exactly one membership for it. -/
theorem hub_register_idempotent (w : Wspool) (c : Conn) (n : Nat)
    (hq : w.quit = false) (hnd : w.connections.Nodup) :
    run w (List.replicate (n + 1) (Event.register c)) =
      (⟨insertConn c w.connections, w.quit⟩, [])
    ∧ (insertConn c w.connections).count c = 1 :=
  ⟨run_registers n w c hq, insertConn_count c w.connections hnd⟩

theorem hub_register_idempotent_witness :
    run ⟨[], false⟩ (List.replicate 3 (Event.register 6)) =
      (⟨insertConn 6 [], false⟩, [])
    ∧ (insertConn 6 ([] : List Conn)).count 6 = 1 :=
  hub_register_idempotent ⟨[], false⟩ 6 2 rfl (by decide)

/-- C5: an Unregister event for an absent session is a no-op, whatever
the state the preceding events produced: the live set and quit flag
are unchanged and no mailbox is closed; for a present session it is
removed and its mailbox closed. -/
theorem hub_unregister_idempotent (w : Wspool) (c : Conn) :
    (c ∉ w.connections → step w (Event.unregister c) = (w, []))
    ∧ (c ∈ w.connections →
        step w (Event.unregister c) =
          (⟨w.connections.erase c, w.quit⟩, [Effect.closeSend c])) := by
  constructor
  · intro h
    simp [step, h]
  · intro h
    simp [step, h, closeConn]

theorem hub_unregister_idempotent_witness :
    step ⟨[2], false⟩ (Event.unregister 5) = (⟨[2], false⟩, []) :=
  (hub_unregister_idempotent ⟨[2], false⟩ 5).1 (by decide)

/-- C6: a transport write failure on a payload write or a keepalive
ping terminates only the session's output task - the loop stops after
recording that one failed attempt, processing no further mailbox or
ticker events, and its result carries no error to the hub or the
process (writeLoop, like the Go function, returns nothing but its own
local write log); and every write attempt it ever makes (payload text,
ping, and close frame) is performed under the same fixed writeWait
deadline. -/
theorem session_write_failure_local (wok : Nat → Bool) (k : Nat)
    (evs : List WsEvent) :
    (∀ r ∈ writeLoop wok k evs, r.deadline = writeWait)
    ∧ (wok k = false →
        (∀ (p : Payload) (es : List WsEvent),
          writeLoop wok k (WsEvent.msg p :: es) =
            [⟨textMessage, p, writeWait⟩])
        ∧ (∀ es : List WsEvent,
          writeLoop wok k (WsEvent.tick :: es) =
            [⟨pingMessage, [], writeWait⟩])) := by
  refine ⟨writeLoop_deadline wok evs k, ?_⟩
  intro hk
  constructor
  · intro p es
    simp [writeLoop, write, hk]
  · intro es
    simp [writeLoop, write, hk]

theorem session_write_failure_local_witness :
    writeLoop (fun _ => false) 0 [WsEvent.msg [7], WsEvent.tick] =
      [⟨textMessage, [7], writeWait⟩] :=
  ((session_write_failure_local (fun _ => false) 0 []).2 rfl).1
    [7] [WsEvent.tick]

/-- C7: the keepalive ping period is exactly 90 percent of the pong
wait (the peer's assumed liveness window) and is therefore strictly
below it, so a probe is scheduled before the peer would time the
connection out. -/
theorem session_ping_period_ratio :
    10 * pingPeriod = 9 * pongWait ∧ pingPeriod < pongWait := by
  constructor
  · decide
  · decide

/-- C8: decoding is split-invariant - for any buffered state and any
input split into two fragments at any byte offset (including mid-word
and mid-quote), feeding the fragments in two successive decode calls
yields the same decoded Lines, in order, and the same final buffer as
feeding the concatenation in one call; and the buffer always holds
exactly the unconsumed trailing bytes: the raw bytes of the completed
lines plus the buffer reassemble the old buffer plus the input, so no
byte is lost or duplicated. -/
theorem tokeniser_split_invariant (buf f1 f2 : List Char) :
    ((decode buf f1).1 ++ (decode (decode buf f1).2 f2).1 =
      (decode buf (f1 ++ f2)).1)
    ∧ ((decode (decode buf f1).2 f2).2 = (decode buf (f1 ++ f2)).2)
    ∧ (∀ input, rawJoin (decodeRaw buf input) = buf ++ input) := by
  refine ⟨?_, ?_, fun input => decodeRaw_conservation buf input⟩
  · unfold decode
    rw [decodeRaw_append]
    simp
  · unfold decode
    rw [decodeRaw_append]

/-- C9: Register adds the session to the live set with no check of its
mailbox state; concretely, a session evicted by a broadcast (its
mailbox closed) that is registered again re-enters the live set, and
the next payload broadcast records a send into the previously closed
mailbox - in Go a send on a closed channel, i.e. a panic. -/
theorem hub_register_closed_mailbox_hazard :
    (∀ (w : Wspool) (c : Conn),
      c ∈ (step w (Event.register c)).1.connections)
    ∧ (run ⟨[], false⟩ [Event.register 0,
        Event.broadcast [1] true fun _ => false,
        Event.register 0]).1.connections = [0]
    ∧ sendOnClosed (run ⟨[], false⟩ [Event.register 0,
        Event.broadcast [1] true (fun _ => false),
        Event.register 0,
        Event.broadcast [2] true fun _ => true]).2 = true := by
  refine ⟨?_, by decide, by decide⟩
  intro w c
  simp only [step]
  exact (mem_insertConn c c w.connections).mpr (Or.inl rfl)

/-- For a Register event, the registered session's mailbox must never
have been closed; other events carry no such obligation. -/
def RegOpen : Event → List Conn → Prop
  | Event.register c, closed => c ∉ closed
  | _, _ => True

/-- C10: assuming every registered session arrives with an open, never
closed mailbox, each loop iteration preserves the open-mailbox
invariant of the live set; a session leaves the set only together with
the closing of its mailbox in the same step (closeConn), and a payload
broadcast never adds members: its resulting live set is a subset of
the previous one. -/
theorem hub_live_set_open_invariant (w : Wspool) (closed : List Conn)
    (e : Event) (hnd : w.connections.Nodup) (hinv : InvOpen w closed)
    (hreg : RegOpen e closed) :
    InvOpen (step w e).1 (closed ++ closedConns (step w e).2)
    ∧ (∀ c ∈ w.connections, c ∉ (step w e).1.connections →
        Effect.closeSend c ∈ (step w e).2)
    ∧ (∀ (p : Payload) (ready : Conn → Bool),
        ∀ c ∈ (step w (Event.broadcast p true ready)).1.connections,
          c ∈ w.connections) := by
  refine ⟨?_, ?_, ?_⟩
  · cases e with
    | register c0 =>
      intro c hc
      simp only [step, closedConns, List.filterMap_nil, List.append_nil] at hc ⊢
      rcases (mem_insertConn c c0 w.connections).mp hc with rfl | hcw
      · exact hreg
      · exact hinv c hcw
    | unregister c0 =>
      by_cases hm : c0 ∈ w.connections
      · intro c hc
        simp only [step, if_pos hm, closeConn] at hc ⊢
        simp only [closedConns, List.filterMap_cons, List.filterMap_nil] at hc ⊢
        have h2 := (List.Nodup.mem_erase_iff hnd).mp hc
        rw [List.mem_append]
        rintro (hcl | hc0)
        · exact hinv c h2.2 hcl
        · simp only [List.mem_singleton] at hc0
          exact h2.1 hc0
      · intro c hc
        simp only [step, if_neg hm] at hc ⊢
        simp only [closedConns, List.filterMap_nil, List.append_nil]
        exact hinv c hc
    | broadcast p ok ready =>
      cases ok with
      | true =>
        have h1 := handleBroadcast_true w p ready hnd
        intro c hc
        simp only [step, h1] at hc ⊢
        rw [closedConns_fanout]
        have hcw : c ∈ w.connections := List.mem_of_mem_filter hc
        have hcr : ready c = true := by
          simpa using (List.mem_filter.mp hc).2
        rw [List.mem_append]
        rintro (hcl | hcl)
        · exact hinv c hcw hcl
        · have := (List.mem_filter.mp hcl).2
          rw [hcr] at this
          simp at this
      | false =>
        have h1 := handleBroadcast_false w p ready
        intro c hc
        simp only [step, h1] at hc
        simp at hc
  · cases e with
    | register c0 =>
      intro c hc hout
      exact absurd ((mem_insertConn c c0 w.connections).mpr (Or.inr hc))
        hout
    | unregister c0 =>
      by_cases hm : c0 ∈ w.connections
      · intro c hc hout
        simp only [step, if_pos hm, closeConn] at hout ⊢
        have : c = c0 := by
          by_contra hne
          exact hout ((List.Nodup.mem_erase_iff hnd).mpr ⟨hne, hc⟩)
        rw [this]
        simp
      · intro c hc hout
        simp only [step, if_neg hm] at hout
        exact absurd hc hout
    | broadcast p ok ready =>
      cases ok with
      | true =>
        have h1 := handleBroadcast_true w p ready hnd
        intro c hc hout
        simp only [step, h1] at hout ⊢
        have hcr : ready c = false := by
          by_contra hne
          rw [Bool.not_eq_false] at hne
          exact hout (List.mem_filter.mpr ⟨hc, by simpa using hne⟩)
        have h3 : (if ready c then Effect.send c p else Effect.closeSend c)
            ∈ w.connections.map fun c =>
              if ready c then Effect.send c p else Effect.closeSend c :=
          List.mem_map_of_mem _ hc
        rw [hcr] at h3
        simpa using h3
      | false =>
        have h1 := handleBroadcast_false w p ready
        intro c hc _
        simp only [step, h1]
        exact List.mem_map_of_mem Effect.closeSend hc
  · intro p ready c hc
    have h1 := handleBroadcast_true w p ready hnd
    simp only [step, h1] at hc
    exact List.mem_of_mem_filter hc

theorem hub_live_set_open_invariant_witness :
    InvOpen (step ⟨[4], false⟩ (Event.register 9)).1
      ([] ++ closedConns (step ⟨[4], false⟩ (Event.register 9)).2) :=
  (hub_live_set_open_invariant ⟨[4], false⟩ [] (Event.register 9)
    (by decide) (by intro c hc; simp) (by simp [RegOpen])).1
